import Mathlib

/-!
Verification development for the icon generator in scripts/generate_icon.py.

The script renders a 1024x1024 RGBA image: a rounded-rectangle mask, a dark
vertical gradient background, five glass-wave layers (an exponentially fading
body fill, a Gaussian-blurred bloom copy of a one-pixel edge line, and the
sharp edge line itself, each alpha-over composited), then the content alpha is
replaced wholesale by the mask and the result is composited over a transparent
base.

Modelling conventions:
- pixels are RGBA with rational channels normalized to the unit interval
  (a raw byte value v is modelled as v / 255);
- a canvas is a total function from integer coordinates to pixels; layers are
  transparent outside the regions the script writes;
- Python float arithmetic on sin and exp is idealized over the real numbers;
  Python int() truncation toward zero is the function pyInt below;
- the Gaussian blur of the Pillow library is external library code with no
  source in this repository, so the pipeline is parameterized by an arbitrary
  blur function applied with the declared per-wave radius;
- the one-pixel polyline of Pillow ImageDraw.line through the 1024 per-column
  sample points is modelled by its sample pixels: column x receives the pixel
  at the truncated wave height. For waves of amplitude zero, the ones used in
  concrete evaluations below, this rasterization is exact.
-/

namespace DinIcon

/-- Canvas size constant of the script. -/
def SIZE : ℕ := 1024

/-- Margin constant of the script. -/
def MARGIN : ℤ := 100

/-- Corner radius constant of the script. -/
def CORNER : ℤ := 185

/-- RGBA pixel, channels as rationals normalized to the unit interval. -/
structure Pixel where
  r : ℚ
  g : ℚ
  b : ℚ
  a : ℚ
deriving DecidableEq

/-- Fully transparent pixel, the initial value of every layer. -/
def transparent : Pixel := ⟨0, 0, 0, 0⟩

/-- A canvas maps integer coordinates to pixels. -/
def Canvas : Type := ℤ → ℤ → Pixel

/-- Straight-alpha over operator: s over d, each layer weighted by its own
alpha, as performed by Pillow Image.alpha_composite per pixel. -/
def over (s d : Pixel) : Pixel :=
  let a := s.a + d.a * (1 - s.a)
  if a = 0 then transparent
  else ⟨(s.r * s.a + d.r * d.a * (1 - s.a)) / a,
        (s.g * s.a + d.g * d.a * (1 - s.a)) / a,
        (s.b * s.a + d.b * d.a * (1 - s.a)) / a, a⟩

/-- Pillow Image.alpha_composite im1 im2: im2 over im1, pixelwise. -/
def alphaComposite (im1 im2 : Canvas) : Canvas :=
  fun x y => over (im2 x y) (im1 x y)

/-- Region filled by rounded_rect: two rectangles (Pillow draw.rectangle is
inclusive of both corners) and four quarter disks drawn by draw.pieslice on
the ellipse inscribed in each corner bounding box. -/
def roundedRectRegion (x0 y0 x1 y1 rad x y : ℤ) : Prop :=
  (x0 + rad ≤ x ∧ x ≤ x1 - rad ∧ y0 ≤ y ∧ y ≤ y1) ∨
  (x0 ≤ x ∧ x ≤ x1 ∧ y0 + rad ≤ y ∧ y ≤ y1 - rad) ∨
  ((x - (x0 + rad)) ^ 2 + (y - (y0 + rad)) ^ 2 ≤ rad ^ 2 ∧ x ≤ x0 + rad ∧ y ≤ y0 + rad) ∨
  ((x - (x1 - rad)) ^ 2 + (y - (y0 + rad)) ^ 2 ≤ rad ^ 2 ∧ x1 - rad ≤ x ∧ y ≤ y0 + rad) ∨
  ((x - (x0 + rad)) ^ 2 + (y - (y1 - rad)) ^ 2 ≤ rad ^ 2 ∧ x ≤ x0 + rad ∧ y1 - rad ≤ y) ∨
  ((x - (x1 - rad)) ^ 2 + (y - (y1 - rad)) ^ 2 ≤ rad ^ 2 ∧ x1 - rad ≤ x ∧ y1 - rad ≤ y)

instance (x0 y0 x1 y1 rad x y : ℤ) : Decidable (roundedRectRegion x0 y0 x1 y1 rad x y) := by
  unfold roundedRectRegion; infer_instance

/-- The single-channel mask of main: rounded_rect on the box from MARGIN to
SIZE - MARGIN with radius CORNER, fill value 255, zero elsewhere. -/
def maskVal (x y : ℤ) : ℕ :=
  if roundedRectRegion MARGIN MARGIN ((SIZE : ℤ) - MARGIN) ((SIZE : ℤ) - MARGIN) CORNER x y
  then 255 else 0

/-- Background gradient of main: per row t = y / SIZE, channels
int(5 + t * 8), int(5 + t * 8), int(12 + t * 18), alpha 255. The float
expressions are exact dyadic rationals, so the rational floor is the value
Python int() produces. -/
def background : Canvas := fun x y =>
  if 0 ≤ x ∧ x < (SIZE : ℤ) ∧ 0 ≤ y ∧ y < (SIZE : ℤ) then
    ⟨(⌊(5 : ℚ) + ((y : ℚ) / 1024) * 8⌋ : ℚ) / 255,
     (⌊(5 : ℚ) + ((y : ℚ) / 1024) * 8⌋ : ℚ) / 255,
     (⌊(12 : ℚ) + ((y : ℚ) / 1024) * 18⌋ : ℚ) / 255, 1⟩
  else transparent

/-- Wave descriptor record, mirroring the wave dictionaries of main. -/
structure Wave where
  base_y : ℝ
  amplitude : ℝ
  freq : ℝ
  phase : ℝ
  edge : ℕ × ℕ × ℕ × ℕ
  body : ℕ × ℕ × ℕ
  depth : ℕ
  blur : ℕ

/-- Alpha component of the edge color of a wave. -/
def Wave.edgeA (w : Wave) : ℕ := w.edge.2.2.2

/-- First wave dictionary of main. -/
def wave1 : Wave := ⟨300, 25, 0.006, 0.8, (100, 190, 235, 140), (25, 60, 100), 200, 10⟩

/-- Second wave dictionary of main. -/
def wave2 : Wave := ⟨400, 45, 0.0085, 3.6, (110, 200, 240, 170), (28, 70, 115), 190, 9⟩

/-- Third wave dictionary of main. -/
def wave3 : Wave := ⟨510, 50, 0.007, 1.2, (130, 215, 250, 200), (30, 80, 130), 180, 8⟩

/-- Fourth wave dictionary of main. -/
def wave4 : Wave := ⟨620, 42, 0.0095, 5.0, (150, 225, 255, 225), (35, 90, 140), 165, 7⟩

/-- Fifth wave dictionary of main. -/
def wave5 : Wave := ⟨740, 35, 0.008, 2.5, (175, 240, 255, 250), (40, 100, 150), 150, 6⟩

/-- The five wave dictionaries in declared order, back to front. -/
def waves : List Wave := [wave1, wave2, wave3, wave4, wave5]

/-- The sine wave height wave_y of the script. -/
noncomputable def wave_y (x base amplitude freq phase : ℝ) : ℝ :=
  base + amplitude * Real.sin (freq * x + phase)

/-- Python int() on a float: truncation toward zero. -/
noncomputable def pyInt (r : ℝ) : ℤ := if 0 ≤ r then ⌊r⌋ else ⌈r⌉

/-- Integer wave height of a column: int(y_func(x)) in draw_glass_wave. -/
noncomputable def waveYInt (w : Wave) (x : ℤ) : ℤ :=
  pyInt (wave_y x w.base_y w.amplitude w.freq w.phase)

/-- Body-fill alpha of draw_glass_wave at depth d:
int(edge_color[3] * 0.6 * exp(-3.5 * (d / bloom_depth))). -/
noncomputable def bodyAlpha (ea D d : ℕ) : ℤ :=
  pyInt ((ea : ℝ) * 0.6 * Real.exp (-3.5 * ((d : ℝ) / (D : ℝ))))

/-- Inner loop of the body fill for one column, recorded as the list of
(depth, row) pairs written. Mirrors the source exactly: a row outside the
canvas is skipped with continue, an alpha below 1 breaks out of the loop,
otherwise the pixel is written. The fuel argument counts the remaining
iterations of range(bloom_depth). -/
noncomputable def bodyLoop (ea D : ℕ) (wy : ℤ) : ℕ → ℕ → List (ℕ × ℤ)
  | _, 0 => []
  | d, fuel + 1 =>
    if wy + (d : ℤ) < 0 ∨ (SIZE : ℤ) ≤ wy + (d : ℤ) then bodyLoop ea D wy (d + 1) fuel
    else if bodyAlpha ea D d < 1 then []
    else (d, wy + (d : ℤ)) :: bodyLoop ea D wy (d + 1) fuel

/-- All (depth, row) writes of the body fill in one column with crest row wy. -/
noncomputable def bodyWrites (ea D : ℕ) (wy : ℤ) : List (ℕ × ℤ) :=
  bodyLoop ea D wy 0 D

/-- Modelled from the spec: the body-fill loop of 4.4 without the
sub-visibility early exit, always running the full bloom_depth range while
still skipping rows outside the canvas. Comparison definition for the
refinement claim that the early exit never fires on the actual wave data. -/
noncomputable def bodyLoopFull (ea D : ℕ) (wy : ℤ) : ℕ → ℕ → List (ℕ × ℤ)
  | _, 0 => []
  | d, fuel + 1 =>
    if wy + (d : ℤ) < 0 ∨ (SIZE : ℤ) ≤ wy + (d : ℤ) then bodyLoopFull ea D wy (d + 1) fuel
    else (d, wy + (d : ℤ)) :: bodyLoopFull ea D wy (d + 1) fuel

/-- All (depth, row) writes of the full-depth body fill in one column. -/
noncomputable def bodyFullWrites (ea D : ℕ) (wy : ℤ) : List (ℕ × ℤ) :=
  bodyLoopFull ea D wy 0 D

/-- Body gradient layer of draw_glass_wave: in every canvas column, the rows
recorded by the body loop hold the body RGB with the depth-dependent alpha. -/
noncomputable def bodyLayer (w : Wave) : Canvas := fun x y =>
  if 0 ≤ x ∧ x < (SIZE : ℤ) then
    match (bodyWrites w.edgeA w.depth (waveYInt w x)).find? (fun p => p.2 == y) with
    | some p => ⟨(w.body.1 : ℚ) / 255, (w.body.2.1 : ℚ) / 255, (w.body.2.2 : ℚ) / 255,
        (bodyAlpha w.edgeA w.depth p.1 : ℚ) / 255⟩
    | none => transparent
  else transparent

/-- Edge color of a wave as a normalized pixel. -/
def edgeColor (w : Wave) : Pixel :=
  ⟨(w.edge.1 : ℚ) / 255, (w.edge.2.1 : ℚ) / 255, (w.edge.2.2.1 : ℚ) / 255,
   (w.edge.2.2.2 : ℚ) / 255⟩

/-- Edge line layer of draw_glass_wave: the one-pixel polyline through the
sample points (x, int(y_func(x))), one per canvas column. -/
noncomputable def edgeLayer (w : Wave) : Canvas := fun x y =>
  if 0 ≤ x ∧ x < (SIZE : ℤ) ∧ y = waveYInt w x then edgeColor w else transparent

/-- draw_glass_wave: composite the body layer, then the blurred copy of the
edge layer at the declared radius, then the sharp edge layer, each with
Image.alpha_composite onto the incoming canvas. -/
noncomputable def drawGlassWave (blur : ℕ → Canvas → Canvas) (img : Canvas) (w : Wave) : Canvas :=
  alphaComposite
    (alphaComposite (alphaComposite img (bodyLayer w)) (blur w.blur (edgeLayer w)))
    (edgeLayer w)

/-- The wave loop of main: fold draw_glass_wave over a wave list, each call
compositing onto the accumulating canvas. -/
noncomputable def renderWaves (blur : ℕ → Canvas → Canvas) (img : Canvas) (ws : List Wave) : Canvas :=
  ws.foldl (drawGlassWave blur) img

/-- Content canvas of main after the five waves are drawn over the background. -/
noncomputable def contentCanvas (blur : ℕ → Canvas → Canvas) : Canvas :=
  renderWaves blur background waves

/-- Pillow putalpha, as called by main on the content canvas: replace the
alpha band wholesale with the mask. -/
def putalpha (c : Canvas) (m : ℤ → ℤ → ℕ) : Canvas := fun x y =>
  ⟨(c x y).r, (c x y).g, (c x y).b, (m x y : ℚ) / 255⟩

/-- The fully transparent base image img of main. -/
def baseImage : Canvas := fun _ _ => transparent

/-- Final image of main: the masked content composited over the transparent
base with Image.alpha_composite. -/
noncomputable def finalImage (blur : ℕ → Canvas → Canvas) : Canvas :=
  alphaComposite baseImage (putalpha (contentCanvas blur) maskVal)

/-- Identity blur, a concrete instance of the abstract blur parameter. -/
def idBlur : ℕ → Canvas → Canvas := fun _ c => c

/-- Lowest row a wave band can touch: the crest bound base_y - amplitude. -/
def bandLo (w : Wave) : ℝ := w.base_y - w.amplitude

/-- Highest row a wave band can touch: base_y + amplitude + depth. -/
def bandHi (w : Wave) : ℝ := w.base_y + w.amplitude + (w.depth : ℝ)

/-- Two wave bands overlap when their row intervals intersect. -/
def bandsOverlap (A B : Wave) : Prop :=
  max (bandLo A) (bandLo B) ≤ min (bandHi A) (bandHi B)

/-- A row lies inside the band of a wave. -/
def inBand (w : Wave) (y : ℤ) : Prop :=
  bandLo w ≤ (y : ℝ) ∧ (y : ℝ) ≤ bandHi w

/-- Flat red wave used in the commutativity analysis: amplitude zero, opaque
red edge at row 500, depth 10. -/
def cexA : Wave := ⟨500, 0, 1, 0, (255, 0, 0, 255), (10, 20, 30), 10, 2⟩

/-- Flat green wave: identical to cexA except for the edge RGB. -/
def cexB : Wave := { cexA with edge := (0, 255, 0, 255) }

/-- Flat wave identical to cexA except for the frequency; at amplitude zero
the frequency does not affect any rendered layer. -/
def cexD : Wave := { cexA with freq := 2 }

/-! Helper lemmas about the body-fill alpha. -/

lemma bodyAlpha_eq_floor (ea D d : ℕ) :
    bodyAlpha ea D d = ⌊(ea : ℝ) * 0.6 * Real.exp (-3.5 * ((d : ℝ) / (D : ℝ)))⌋ := by
  unfold bodyAlpha pyInt
  rw [if_pos]
  positivity

lemma div_cast_le_div_cast {d e : ℕ} (D : ℕ) (h : d ≤ e) :
    ((d : ℝ) / (D : ℝ)) ≤ ((e : ℝ) / (D : ℝ)) := by
  have hde : (d : ℝ) ≤ (e : ℝ) := by exact_mod_cast h
  exact div_le_div_of_nonneg_right hde (by positivity)

lemma bodyAlpha_antitone (ea D : ℕ) {d e : ℕ} (h : d ≤ e) :
    bodyAlpha ea D e ≤ bodyAlpha ea D d := by
  rw [bodyAlpha_eq_floor, bodyAlpha_eq_floor]
  apply Int.floor_le_floor
  have hdiv := div_cast_le_div_cast D h
  have hexp : Real.exp (-3.5 * ((e : ℝ) / (D : ℝ))) ≤ Real.exp (-3.5 * ((d : ℝ) / (D : ℝ))) :=
    Real.exp_le_exp.mpr (by nlinarith)
  have hcoef : (0 : ℝ) ≤ (ea : ℝ) * 0.6 := by positivity
  exact mul_le_mul_of_nonneg_left hexp hcoef

lemma exp_seven_lt : Real.exp 7 < 1764 := by
  have h1 : Real.exp 1 < 2.7182818286 := Real.exp_one_lt_d9
  have h0 : (0 : ℝ) ≤ Real.exp 1 := (Real.exp_pos 1).le
  have h7 : Real.exp 1 ^ 7 < 2.7182818286 ^ 7 := by
    exact pow_lt_pow_left₀ h1 h0 (by norm_num)
  have heq : Real.exp 1 ^ 7 = Real.exp 7 := by
    rw [← Real.exp_nat_mul]; norm_num
  have hnum : (2.7182818286 : ℝ) ^ 7 < 1764 := by norm_num
  calc Real.exp 7 = Real.exp 1 ^ 7 := heq.symm
    _ < 2.7182818286 ^ 7 := h7
    _ < 1764 := hnum

lemma exp_threehalf_lt : Real.exp 3.5 < 42 := by
  have hsq : Real.exp 3.5 * Real.exp 3.5 = Real.exp 7 := by
    rw [← Real.exp_add]; norm_num
  have h7 := exp_seven_lt
  nlinarith [Real.exp_pos (3.5 : ℝ)]

lemma two_le_bodyAlpha (ea D d : ℕ) (hea : 140 ≤ ea) (hd : d ≤ D) :
    2 ≤ bodyAlpha ea D d := by
  rw [bodyAlpha_eq_floor]
  apply Int.le_floor.mpr
  have hea2 : (140 : ℝ) ≤ (ea : ℝ) := by exact_mod_cast hea
  have hfrac : ((d : ℝ) / (D : ℝ)) ≤ 1 := by
    rcases Nat.eq_zero_or_pos D with hD | hD
    · subst hD; simp
    · have hDpos : (0 : ℝ) < (D : ℝ) := by exact_mod_cast hD
      rw [div_le_one hDpos]; exact_mod_cast hd
  have hexp : Real.exp (-3.5) ≤ Real.exp (-3.5 * ((d : ℝ) / (D : ℝ))) :=
    Real.exp_le_exp.mpr (by nlinarith)
  have hinv : (1 : ℝ) / 42 < Real.exp (-3.5) := by
    have h42 := exp_threehalf_lt
    have hpos := Real.exp_pos (3.5 : ℝ)
    rw [Real.exp_neg, ← one_div]
    exact one_div_lt_one_div_of_lt hpos h42
  have hchain : (2 : ℝ) ≤ 84 * Real.exp (-3.5 * ((d : ℝ) / (D : ℝ))) := by
    have h84 : (2 : ℝ) < 84 * Real.exp (-3.5) := by nlinarith
    have hmono : 84 * Real.exp (-3.5) ≤ 84 * Real.exp (-3.5 * ((d : ℝ) / (D : ℝ))) := by
      nlinarith
    linarith
  have hfinal : 84 * Real.exp (-3.5 * ((d : ℝ) / (D : ℝ)))
      ≤ (ea : ℝ) * 0.6 * Real.exp (-3.5 * ((d : ℝ) / (D : ℝ))) := by
    have hp := (Real.exp_pos (-3.5 * ((d : ℝ) / (D : ℝ)))).le
    nlinarith
  push_cast
  linarith

lemma one_le_bodyAlpha (ea D d : ℕ) (hea : 140 ≤ ea) (hd : d ≤ D) :
    1 ≤ bodyAlpha ea D d := by
  have := two_le_bodyAlpha ea D d hea hd
  omega

/-! Helper lemmas about the body-fill loop. -/

lemma bodyLoop_step (ea D : ℕ) (wy : ℤ) (d fuel : ℕ) :
    bodyLoop ea D wy d (fuel + 1) =
      if wy + (d : ℤ) < 0 ∨ (SIZE : ℤ) ≤ wy + (d : ℤ) then bodyLoop ea D wy (d + 1) fuel
      else if bodyAlpha ea D d < 1 then []
      else (d, wy + (d : ℤ)) :: bodyLoop ea D wy (d + 1) fuel := rfl

lemma bodyLoopFull_step (ea D : ℕ) (wy : ℤ) (d fuel : ℕ) :
    bodyLoopFull ea D wy d (fuel + 1) =
      if wy + (d : ℤ) < 0 ∨ (SIZE : ℤ) ≤ wy + (d : ℤ) then bodyLoopFull ea D wy (d + 1) fuel
      else (d, wy + (d : ℤ)) :: bodyLoopFull ea D wy (d + 1) fuel := rfl

lemma bodyLoop_mem (ea D : ℕ) (wy : ℤ) :
    ∀ fuel d p, p ∈ bodyLoop ea D wy d fuel →
      (0 ≤ p.2 ∧ p.2 < (SIZE : ℤ)) ∧ 1 ≤ bodyAlpha ea D p.1 ∧ d ≤ p.1 := by
  intro fuel
  induction fuel with
  | zero => intro d p hp; simp [bodyLoop] at hp
  | succ n ih =>
    intro d p hp
    rw [bodyLoop_step] at hp
    by_cases hoob : wy + (d : ℤ) < 0 ∨ (SIZE : ℤ) ≤ wy + (d : ℤ)
    · rw [if_pos hoob] at hp
      have h := ih (d + 1) p hp
      exact ⟨h.1, h.2.1, by omega⟩
    · rw [if_neg hoob] at hp
      by_cases halpha : bodyAlpha ea D d < 1
      · rw [if_pos halpha] at hp
        simp at hp
      · rw [if_neg halpha] at hp
        rcases List.mem_cons.mp hp with hhead | htail
        · subst hhead
          push_neg at hoob
          refine ⟨⟨hoob.1, hoob.2⟩, ?_, le_refl d⟩
          show 1 ≤ bodyAlpha ea D d
          omega
        · have h := ih (d + 1) p htail
          exact ⟨h.1, h.2.1, by omega⟩

lemma bodyLoop_eq_full (ea D : ℕ) (wy : ℤ) :
    ∀ fuel d, (∀ e : ℕ, d ≤ e → e < d + fuel → 1 ≤ bodyAlpha ea D e) →
      bodyLoop ea D wy d fuel = bodyLoopFull ea D wy d fuel := by
  intro fuel
  induction fuel with
  | zero => intro d _; rfl
  | succ n ih =>
    intro d hyp
    rw [bodyLoop_step, bodyLoopFull_step]
    by_cases hoob : wy + (d : ℤ) < 0 ∨ (SIZE : ℤ) ≤ wy + (d : ℤ)
    · rw [if_pos hoob, if_pos hoob]
      exact ih (d + 1) (fun e he hlt => hyp e (by omega) (by omega))
    · rw [if_neg hoob, if_neg hoob]
      have halpha : ¬ bodyAlpha ea D d < 1 := by
        have := hyp d (le_refl d) (by omega)
        omega
      rw [if_neg halpha]
      rw [ih (d + 1) (fun e he hlt => hyp e (by omega) (by omega))]

/-! Helper lemmas about the over operator. -/

lemma over_transparent_alpha (s : Pixel) : (over s transparent).a = s.a := by
  unfold over transparent
  simp only [mul_zero, zero_mul, add_zero, mul_one]
  by_cases h : s.a = 0
  · rw [if_pos h]
    simp [h]
  · rw [if_neg h]

lemma over_with_full_alpha (s d : Pixel) (h : s.a = 1) : over s d = ⟨s.r, s.g, s.b, 1⟩ := by
  unfold over
  rw [h]
  norm_num

lemma edgeA_ge_140 (w : Wave) (hw : w ∈ waves) : 140 ≤ w.edgeA := by
  simp [waves] at hw
  rcases hw with rfl | rfl | rfl | rfl | rfl <;>
    norm_num [wave1, wave2, wave3, wave4, wave5, Wave.edgeA]

lemma mem_bodyWrites_zero (ea D : ℕ) (hD : 0 < D) (h1 : ¬ bodyAlpha ea D 0 < 1) :
    ((0 : ℕ), (0 : ℤ)) ∈ bodyWrites ea D 0 := by
  unfold bodyWrites
  obtain ⟨fuel, rfl⟩ : ∃ fuel, D = fuel + 1 := ⟨D - 1, by omega⟩
  rw [bodyLoop_step]
  rw [if_neg (by norm_num [SIZE])]
  rw [if_neg h1]
  simp

/-! The claims. -/

/-- Claim C1, as stated, is false on the code: for the first wave descriptor
(edge alpha 140, bloom depth 200) the body-fill alpha never drops below the
visibility floor of 1 at any depth up to and including bloom_depth, so the
claimed truncation at or before d = bloom_depth does not happen. -/
theorem C1_counterexample :
    ¬ ∃ d : ℕ, d ≤ wave1.depth ∧ bodyAlpha wave1.edgeA wave1.depth d < 1 := by
  rintro ⟨d, hd, hlt⟩
  have h140 : 140 ≤ wave1.edgeA := by norm_num [wave1, Wave.edgeA]
  have := one_le_bodyAlpha wave1.edgeA wave1.depth d h140 hd
  omega

/-- Claim C1, amended: the body-fill pixel alpha equals
int(edge_alpha * 0.6 * exp(-3.5 * d / bloom_depth)) and is monotonically
non-increasing in d; for the five wave descriptors of the program it stays at
or above the visibility floor of 1 for every d up to bloom_depth, so the
truncation branch is not reached at or before d = bloom_depth. -/
theorem C1_amended_alpha_decay :
    (∀ ea D d : ℕ,
      bodyAlpha ea D d = ⌊(ea : ℝ) * 0.6 * Real.exp (-3.5 * ((d : ℝ) / (D : ℝ)))⌋) ∧
    (∀ ea D d e : ℕ, d ≤ e → bodyAlpha ea D e ≤ bodyAlpha ea D d) ∧
    (∀ w ∈ waves, ∀ d : ℕ, d ≤ w.depth → 1 ≤ bodyAlpha w.edgeA w.depth d) := by
  refine ⟨bodyAlpha_eq_floor, fun ea D d e h => bodyAlpha_antitone ea D h, ?_⟩
  intro w hw d hd
  exact one_le_bodyAlpha w.edgeA w.depth d (edgeA_ge_140 w hw) hd

/-- Witness for C1 amended: monotonicity and the floor bound at the deepest
sample of the first wave, at concrete inputs. -/
theorem C1_amended_witness :
    bodyAlpha 140 200 9 ≤ bodyAlpha 140 200 4 ∧ 1 ≤ bodyAlpha wave1.edgeA wave1.depth 200 :=
  ⟨C1_amended_alpha_decay.2.1 140 200 4 9 (by norm_num),
   C1_amended_alpha_decay.2.2 wave1 (by simp [waves]) 200 (by norm_num [wave1])⟩

/-- Claim C4: the wave height function is bounded by baseline plus and minus
amplitude for every descriptor of the program, and is a pure function of x. -/
theorem C4_wave_height_bounded :
    ∀ w ∈ waves, ∀ x : ℝ,
      (w.base_y - w.amplitude ≤ wave_y x w.base_y w.amplitude w.freq w.phase ∧
       wave_y x w.base_y w.amplitude w.freq w.phase ≤ w.base_y + w.amplitude) ∧
      (∀ x2 : ℝ, x = x2 →
        wave_y x w.base_y w.amplitude w.freq w.phase =
          wave_y x2 w.base_y w.amplitude w.freq w.phase) := by
  intro w hw x
  have hamp : 0 ≤ w.amplitude := by
    simp [waves] at hw
    rcases hw with rfl | rfl | rfl | rfl | rfl <;> norm_num [wave1, wave2, wave3, wave4, wave5]
  refine ⟨⟨?_, ?_⟩, fun x2 hx => by rw [hx]⟩
  · unfold wave_y
    nlinarith [Real.neg_one_le_sin (w.freq * x + w.phase), Real.sin_le_one (w.freq * x + w.phase)]
  · unfold wave_y
    nlinarith [Real.neg_one_le_sin (w.freq * x + w.phase), Real.sin_le_one (w.freq * x + w.phase)]

/-- Witness for C4: the bound evaluated on the first wave at column zero. -/
theorem C4_witness :
    wave1.base_y - wave1.amplitude ≤ wave_y 0 wave1.base_y wave1.amplitude wave1.freq wave1.phase ∧
    wave_y 0 wave1.base_y wave1.amplitude wave1.freq wave1.phase ≤ wave1.base_y + wave1.amplitude :=
  (C4_wave_height_bounded wave1 (by simp [waves]) 0).1

/-- Claim C6: a sample row outside the canvas is skipped and the loop
continues with the next depth, every pixel the body fill writes lies inside
the canvas row range with alpha at least 1, and once the alpha at some depth
is below 1 no write at that or any greater depth occurs. -/
theorem C6_body_fill_safety :
    ∀ ea D : ℕ, ∀ wy : ℤ,
      (∀ p ∈ bodyWrites ea D wy, (0 ≤ p.2 ∧ p.2 < (SIZE : ℤ)) ∧ 1 ≤ bodyAlpha ea D p.1) ∧
      (∀ d : ℕ, bodyAlpha ea D d < 1 → ∀ p ∈ bodyWrites ea D wy, p.1 < d) ∧
      (∀ d fuel : ℕ, wy + (d : ℤ) < 0 ∨ (SIZE : ℤ) ≤ wy + (d : ℤ) →
        bodyLoop ea D wy d (fuel + 1) = bodyLoop ea D wy (d + 1) fuel) := by
  intro ea D wy
  refine ⟨?_, ?_, ?_⟩
  · intro p hp
    have h := bodyLoop_mem ea D wy D 0 p hp
    exact ⟨h.1, h.2.1⟩
  · intro d hd p hp
    have h := bodyLoop_mem ea D wy D 0 p hp
    by_contra hcon
    push_neg at hcon
    have := bodyAlpha_antitone ea D hcon
    omega
  · intro d fuel hoob
    rw [bodyLoop_step, if_pos hoob]

/-- Witness for C6: the write at depth zero of a column with crest row zero
is in bounds and has visible alpha, and a column starting five rows above the
canvas skips its first sample and continues. -/
theorem C6_witness :
    (((0 : ℤ) ≤ (0 : ℤ) ∧ (0 : ℤ) < (SIZE : ℤ)) ∧ 1 ≤ bodyAlpha 140 200 0) ∧
    bodyLoop 140 200 (-5) 0 3 = bodyLoop 140 200 (-5) 1 2 := by
  have halpha : ¬ bodyAlpha 140 200 0 < 1 := by
    have := one_le_bodyAlpha 140 200 0 (by norm_num) (by norm_num)
    omega
  refine ⟨(C6_body_fill_safety 140 200 0).1 (0, 0)
    (mem_bodyWrites_zero 140 200 (by norm_num) halpha), ?_⟩
  exact (C6_body_fill_safety 140 200 (-5)).2.2 0 2 (by norm_num)

/-- Claim C10: for each of the five wave descriptors the body-fill alpha is
at least 2 at every depth below bloom_depth, and consequently the truncated
body-fill loop produces exactly the writes of the full-depth loop. -/
theorem C10_truncation_equivalence :
    ∀ w ∈ waves,
      (∀ d : ℕ, d < w.depth → 2 ≤ bodyAlpha w.edgeA w.depth d) ∧
      (∀ wy : ℤ, bodyWrites w.edgeA w.depth wy = bodyFullWrites w.edgeA w.depth wy) := by
  intro w hw
  have h140 := edgeA_ge_140 w hw
  constructor
  · intro d hd
    exact two_le_bodyAlpha w.edgeA w.depth d h140 (by omega)
  · intro wy
    unfold bodyWrites bodyFullWrites
    exact bodyLoop_eq_full w.edgeA w.depth wy w.depth 0
      (fun e he hlt => one_le_bodyAlpha _ _ e h140 (by omega))

/-- Witness for C10: both parts evaluated on the first wave. -/
theorem C10_witness :
    2 ≤ bodyAlpha wave1.edgeA wave1.depth 0 ∧
    bodyWrites wave1.edgeA wave1.depth 5 = bodyFullWrites wave1.edgeA wave1.depth 5 :=
  ⟨(C10_truncation_equivalence wave1 (by simp [waves])).1 0 (by norm_num [wave1]),
   (C10_truncation_equivalence wave1 (by simp [waves])).2 5⟩

/-- Claim C2: one wave composites exactly body fill, then the blurred copy of
the edge line, then the sharp edge line, each with the alpha-over operator,
and the driver applies this to the five descriptors in declared order onto
the accumulating content canvas. -/
theorem C2_compositing_order :
    (∀ (blur : ℕ → Canvas → Canvas) (img : Canvas) (w : Wave),
      drawGlassWave blur img w =
        alphaComposite (alphaComposite (alphaComposite img (bodyLayer w))
          (blur w.blur (edgeLayer w))) (edgeLayer w)) ∧
    (∀ (im1 im2 : Canvas) (x y : ℤ), alphaComposite im1 im2 x y = over (im2 x y) (im1 x y)) ∧
    (∀ blur : ℕ → Canvas → Canvas,
      contentCanvas blur =
        drawGlassWave blur (drawGlassWave blur (drawGlassWave blur
          (drawGlassWave blur (drawGlassWave blur background wave1) wave2) wave3) wave4) wave5) :=
  ⟨fun _ _ _ => rfl, fun _ _ _ _ => rfl, fun _ => rfl⟩

/-- Claim C5: inside the canvas the background pixel is the affine gradient
int(5 + 8t), int(5 + 8t), int(12 + 18t) of t = y / 1024 with alpha fully
opaque, and it does not depend on the column. -/
theorem C5_background_gradient :
    ∀ x y : ℤ, 0 ≤ x → x < (SIZE : ℤ) → 0 ≤ y → y < (SIZE : ℤ) →
      background x y =
        ⟨(⌊(5 : ℚ) + ((y : ℚ) / 1024) * 8⌋ : ℚ) / 255,
         (⌊(5 : ℚ) + ((y : ℚ) / 1024) * 8⌋ : ℚ) / 255,
         (⌊(12 : ℚ) + ((y : ℚ) / 1024) * 18⌋ : ℚ) / 255, 1⟩ ∧
      ∀ x2 : ℤ, 0 ≤ x2 → x2 < (SIZE : ℤ) → background x y = background x2 y := by
  intro x y hx1 hx2 hy1 hy2
  constructor
  · unfold background
    rw [if_pos ⟨hx1, hx2, hy1, hy2⟩]
  · intro x2 h1 h2
    unfold background
    rw [if_pos ⟨hx1, hx2, hy1, hy2⟩, if_pos ⟨h1, h2, hy1, hy2⟩]

/-- Witness for C5: the top-left background pixel and its independence from
the column. -/
theorem C5_witness :
    background 0 0 = ⟨5 / 255, 5 / 255, 12 / 255, 1⟩ ∧ background 0 0 = background 5 0 := by
  have h := C5_background_gradient 0 0 (by norm_num) (by norm_num [SIZE])
    (by norm_num) (by norm_num [SIZE])
  refine ⟨?_, h.2 5 (by norm_num) (by norm_num [SIZE])⟩
  rw [h.1]
  norm_num [Pixel.mk.injEq]

/-- Claim C7: the render pipeline is deterministic; with the same blur
semantics two runs of the full generation produce the identical image, the
whole pipeline being a pure function of the hardcoded constants. -/
theorem C7_deterministic_render :
    ∀ b1 b2 : ℕ → Canvas → Canvas, b1 = b2 → finalImage b1 = finalImage b2 := by
  intro b1 b2 h
  rw [h]

/-- Witness for C7: two runs with the identity blur agree. -/
theorem C7_witness : finalImage idBlur = finalImage idBlur :=
  C7_deterministic_render idBlur idBlur rfl

/-- Claim C9: the final image alpha channel equals the mask at every pixel,
because putalpha overwrites the content alpha with the mask and compositing
over a fully transparent base preserves the source alpha. -/
theorem C9_final_alpha_is_mask :
    (∀ (blur : ℕ → Canvas → Canvas) (x y : ℤ),
      (finalImage blur x y).a = (maskVal x y : ℚ) / 255) ∧
    (∀ s : Pixel, (over s transparent).a = s.a) := by
  constructor
  · intro blur x y
    show (over (putalpha (contentCanvas blur) maskVal x y) (baseImage x y)).a = _
    rw [show baseImage x y = transparent from rfl, over_transparent_alpha]
    rfl
  · exact over_transparent_alpha

/-- Claim C3: along the top edge between the corner arcs the topmost opaque
mask pixel of each column is exactly at row MARGIN (the row MARGIN is fully
opaque and every row above it fully transparent), the mask is fully opaque at
the canvas center and fully transparent at the four outermost corners. -/
theorem C3_mask_geometry :
    (∀ x : ℤ, MARGIN + CORNER ≤ x → x ≤ (SIZE : ℤ) - MARGIN - CORNER →
      maskVal x MARGIN = 255 ∧ ∀ y : ℤ, y < MARGIN → maskVal x y = 0) ∧
    maskVal 512 512 = 255 ∧
    maskVal 0 0 = 0 ∧ maskVal 1023 0 = 0 ∧ maskVal 0 1023 = 0 ∧ maskVal 1023 1023 = 0 := by
  refine ⟨?_, by decide, by decide, by decide, by decide, by decide⟩
  intro x h1 h2
  norm_num [MARGIN, CORNER, SIZE] at h1 h2
  constructor
  · unfold maskVal
    rw [if_pos]
    unfold roundedRectRegion
    left
    norm_num [MARGIN, CORNER, SIZE]
    omega
  · intro y hy
    norm_num [MARGIN] at hy
    unfold maskVal
    rw [if_neg]
    intro hreg
    unfold roundedRectRegion at hreg
    norm_num [MARGIN, CORNER, SIZE] at hreg
    rcases hreg with h | h | h | h | h | h
    · omega
    · omega
    · nlinarith [sq_nonneg (x - 285), h.1, hy,
        mul_nonneg (by omega : (0:ℤ) ≤ 471 - y) (by omega : (0:ℤ) ≤ 99 - y)]
    · nlinarith [sq_nonneg (x - 739), h.1, hy,
        mul_nonneg (by omega : (0:ℤ) ≤ 471 - y) (by omega : (0:ℤ) ≤ 99 - y)]
    · omega
    · omega

/-- Witness for C3: the top-edge facts at the concrete column 500. -/
theorem C3_witness : maskVal 500 MARGIN = 255 ∧ maskVal 500 99 = 0 :=
  ⟨(C3_mask_geometry.1 500 (by norm_num [MARGIN, CORNER])
      (by norm_num [MARGIN, CORNER, SIZE])).1,
   (C3_mask_geometry.1 500 (by norm_num [MARGIN, CORNER])
      (by norm_num [MARGIN, CORNER, SIZE])).2 99 (by norm_num [MARGIN])⟩

/-! Evaluation lemmas for the flat counterexample waves. -/

lemma waveYInt_cexA (x : ℤ) : waveYInt cexA x = 500 := by
  unfold waveYInt wave_y pyInt cexA
  norm_num

lemma waveYInt_cexB (x : ℤ) : waveYInt cexB x = 500 := by
  unfold waveYInt wave_y pyInt cexB cexA
  norm_num

lemma edgeLayer_cexA_on : edgeLayer cexA 0 500 = edgeColor cexA := by
  unfold edgeLayer
  rw [if_pos]
  exact ⟨le_refl 0, by norm_num [SIZE], (waveYInt_cexA 0).symm⟩

lemma edgeLayer_cexB_on : edgeLayer cexB 0 500 = edgeColor cexB := by
  unfold edgeLayer
  rw [if_pos]
  exact ⟨le_refl 0, by norm_num [SIZE], (waveYInt_cexB 0).symm⟩

lemma waveYInt_cexD (x : ℤ) : waveYInt cexD x = 500 := by
  unfold waveYInt wave_y pyInt cexD cexA
  norm_num

lemma edgeLayer_cexD_eq : edgeLayer cexD = edgeLayer cexA := by
  funext x y
  unfold edgeLayer
  rw [waveYInt_cexD x, waveYInt_cexA x]
  rfl

lemma bodyLayer_cexD_eq : bodyLayer cexD = bodyLayer cexA := by
  funext x y
  unfold bodyLayer
  rw [waveYInt_cexD x, waveYInt_cexA x]
  rfl

lemma drawGlassWave_cexD_eq (blur : ℕ → Canvas → Canvas) (img : Canvas) :
    drawGlassWave blur img cexD = drawGlassWave blur img cexA := by
  unfold drawGlassWave
  rw [edgeLayer_cexD_eq, bodyLayer_cexD_eq]
  rfl

/-- Claim C8, as stated, is false on the code: the flat waves cexA and cexD
are two distinct wave descriptors whose bands overlap (they coincide), yet
the two rendering orders produce identical images everywhere, so in
particular they do not differ at any overlapping pixel: at amplitude zero the
frequency, the only field in which the pair differs, affects no rendered
layer. -/
theorem C8_counterexample :
    cexA ≠ cexD ∧ bandsOverlap cexA cexD ∧ inBand cexA 505 ∧ inBand cexD 505 ∧
    renderWaves idBlur baseImage [cexA, cexD] = renderWaves idBlur baseImage [cexD, cexA] := by
  refine ⟨?_, ?_, ?_, ?_, ?_⟩
  · intro h
    have := congrArg Wave.freq h
    norm_num [cexA, cexD] at this
  · norm_num [bandsOverlap, bandLo, bandHi, cexA, cexD]
  · norm_num [inBand, bandLo, bandHi, cexA, cexD]
  · norm_num [inBand, bandLo, bandHi, cexA, cexD]
  · simp only [renderWaves, List.foldl, drawGlassWave_cexD_eq]

/-- Claim C8, amended: wave compositing is not commutative in general, the
later list entry occluding the earlier one: there exist distinct wave
descriptors A and B with overlapping bands and an overlapping pixel at which,
for every blur and every starting canvas, rendering [A, B] and rendering
[B, A] produce different pixels. The universal form over all overlapping
pairs fails, because distinct overlapping descriptors can render identical
layer stacks, whereupon the two orders produce identical images. -/
theorem C8_amended_noncommutative :
    ∃ A B : Wave, A ≠ B ∧ bandsOverlap A B ∧ ∃ x y : ℤ, inBand A y ∧ inBand B y ∧
      ∀ (blur : ℕ → Canvas → Canvas) (img : Canvas),
        renderWaves blur img [A, B] x y ≠ renderWaves blur img [B, A] x y := by
  refine ⟨cexA, cexB, ?_, ?_, 0, 500, ?_, ?_, ?_⟩
  · intro h
    have := congrArg Wave.edge h
    simp [cexA, cexB] at this
  · norm_num [bandsOverlap, bandLo, bandHi, cexA, cexB]
  · norm_num [inBand, bandLo, bandHi, cexA, cexB]
  · norm_num [inBand, bandLo, bandHi, cexA, cexB]
  · intro blur img
    simp only [renderWaves, List.foldl, drawGlassWave, alphaComposite]
    rw [edgeLayer_cexA_on, edgeLayer_cexB_on]
    rw [over_with_full_alpha (edgeColor cexB) _ (by norm_num [edgeColor, cexB, cexA])]
    rw [over_with_full_alpha (edgeColor cexA) _ (by norm_num [edgeColor, cexA])]
    norm_num [edgeColor, cexA, cexB, Pixel.mk.injEq]

end DinIcon
